import Mathlib

/-!
A shallow embedding of the go-caskdb storage engine (src/disk_store.go) and a
verification of its documented properties.

Conventions of the embedding:
* Go byte slices and strings are `List Nat` (each element a byte value).
* Go `uint32` arithmetic is `Nat` with an explicit `% 4294967296` (2^32)
  at every point where the Go code performs a conversion or fixed-width
  arithmetic.
* The store's file is a `List Nat` together with the file descriptor's
  current offset; the file is opened with O_APPEND, so a write always lands
  at the end of the file and moves the offset to the new end, while reads
  and seeks move the offset freely.
* `log.Fatal` calls (process aborts) are modelled as `Except.error` results.
-/

/-- Modelled from the spec: the record codec source file (format.go, holding
`encodeKV`, `decodeHeader`, `decodeKV`, `headerSize`, `KeyEntry`) is not under
src/; only its callers in src/disk_store.go are. Little-endian 4-byte
encoding of a 32-bit value (the spec fixes little-endian). -/
def u32le (n : Nat) : List Nat :=
  [n % 256, n / 256 % 256, n / 65536 % 256, n / 16777216 % 256]

/-- Modelled from the spec: little-endian 32-bit decode of the first four
bytes of a buffer. -/
def le32 : List Nat → Nat
  | b0 :: b1 :: b2 :: b3 :: _ => b0 + 256 * b1 + 65536 * b2 + 16777216 * b3
  | _ => 0

/-- The fixed 12-byte header size (timestamp, key_size, value_size, 4 bytes
each). -/
def headerSize : Nat := 12

/-- Modelled from the spec: `encodeKV(timestamp, key, value)` returns
`(total_size, bytes)` where `total_size = 12 + len(key) + len(value)` and the
buffer is header (timestamp, key_size, value_size, little-endian u32 each)
followed by the key bytes and the value bytes. -/
def encodeKV (t : Nat) (k v : List Nat) : Nat × List Nat :=
  (headerSize + k.length + v.length,
   (u32le t ++ u32le k.length ++ u32le v.length) ++ (k ++ v))

/-- The error taxonomy of the spec; `ioFatal` stands for the `log.Fatal`
aborts the Go code performs on I/O failures. -/
inductive DsError where
  | corruptHeader
  | corruptRecord
  | ioFatal
deriving DecidableEq, Repr

/-- Modelled from the spec: `decodeHeader` reads the three fixed-width
little-endian fields (timestamp, key_size, value_size) of a 12-byte buffer. -/
def decodeHeader (b : List Nat) : Nat × Nat × Nat :=
  (le32 b, le32 (b.drop 4), le32 (b.drop 8))

/-- Modelled from the spec: `decodeKV` decodes a full record buffer into
(timestamp, key, value), failing with `CorruptRecord` when the buffer is
shorter than `12 + key_size + value_size` computed from its own header. -/
def decodeKV (b : List Nat) : Except DsError (Nat × List Nat × List Nat) :=
  let h := decodeHeader (b.take headerSize)
  if b.length < headerSize + h.2.1 + h.2.2 then .error .corruptRecord
  else .ok (h.1, (b.drop headerSize).take h.2.1, (b.drop (headerSize + h.2.1)).take h.2.2)

theorem u32le_length (n : Nat) : (u32le n).length = 4 := rfl

theorem le32_u32le_append (n : Nat) (xs : List Nat) :
    le32 (u32le n ++ xs) = n % 4294967296 := by
  simp only [u32le, List.cons_append, List.nil_append, le32]
  omega

theorem le32_u32le (n : Nat) : le32 (u32le n) = n % 4294967296 := by
  have h := le32_u32le_append n []
  simpa using h

theorem encodeKV_bytes_length (t : Nat) (k v : List Nat) :
    (encodeKV t k v).2.length = headerSize + k.length + v.length := by
  simp [encodeKV, u32le, headerSize]
  omega

/-- The codec round-trip, stated over the byte buffer. -/
theorem decodeKV_encodeKV (t : Nat) (k v : List Nat)
    (ht : t < 4294967296) (hk : k.length < 4294967296)
    (hv : v.length < 4294967296) :
    decodeKV (encodeKV t k v).2 = .ok (t, k, v) := by
  have hhdr : (u32le t ++ u32le k.length ++ u32le v.length).length = 12 := by
    simp [u32le]
  have hlen : (encodeKV t k v).2.length = 12 + k.length + v.length := by
    have h := encodeKV_bytes_length t k v
    simpa [headerSize] using h
  have htake : (encodeKV t k v).2.take headerSize
      = u32le t ++ u32le k.length ++ u32le v.length := by
    show ((u32le t ++ u32le k.length ++ u32le v.length) ++ (k ++ v)).take headerSize
        = u32le t ++ u32le k.length ++ u32le v.length
    rw [headerSize, ← hhdr, List.take_left]
  have hdrop : (encodeKV t k v).2.drop headerSize = k ++ v := by
    show ((u32le t ++ u32le k.length ++ u32le v.length) ++ (k ++ v)).drop headerSize
        = k ++ v
    rw [headerSize, ← hhdr, List.drop_left]
  have hT : le32 (u32le t ++ u32le k.length ++ u32le v.length) = t := by
    rw [List.append_assoc, le32_u32le_append]
    omega
  have hK : le32 ((u32le t ++ u32le k.length ++ u32le v.length).drop 4)
      = k.length := by
    rw [List.append_assoc, show (4 : Nat) = (u32le t).length from rfl,
      List.drop_left, le32_u32le_append]
    omega
  have hV : le32 ((u32le t ++ u32le k.length ++ u32le v.length).drop 8)
      = v.length := by
    rw [show (u32le t ++ u32le k.length ++ u32le v.length)
        = (u32le t ++ u32le k.length) ++ u32le v.length by simp,
      show (8 : Nat) = (u32le t ++ u32le k.length).length by simp [u32le],
      List.drop_left, le32_u32le]
    omega
  have hhead : decodeHeader ((encodeKV t k v).2.take headerSize)
      = (t, k.length, v.length) := by
    rw [htake]
    simp only [decodeHeader, hT, hK, hV]
  have hkey : ((encodeKV t k v).2.drop headerSize).take k.length = k := by
    rw [hdrop, List.take_left]
  have hval : (encodeKV t k v).2.drop (headerSize + k.length) = v := by
    show ((u32le t ++ u32le k.length ++ u32le v.length) ++ (k ++ v)).drop
        (headerSize + k.length) = v
    rw [show (u32le t ++ u32le k.length ++ u32le v.length) ++ (k ++ v)
        = ((u32le t ++ u32le k.length ++ u32le v.length) ++ k) ++ v by simp,
      show headerSize + k.length
        = ((u32le t ++ u32le k.length ++ u32le v.length) ++ k).length by
          simp only [List.length_append, u32le_length, headerSize],
      List.drop_left]
  unfold decodeKV
  rw [hhead]
  simp only [hlen]
  rw [if_neg (by simp [headerSize])]
  rw [hkey, hval]
  simp [List.take_length]

/-- Claim C7: for all (timestamp, key, value) with the 32-bit size
preconditions the spec imposes (sizes and timestamp fit in a u32), decoding
the encode of the triple yields the triple back, and the returned total size
is 12 + len(key) + len(value). -/
theorem roundTrip_and_size (t : Nat) (k v : List Nat)
    (ht : t < 4294967296) (hk : k.length < 4294967296)
    (hv : v.length < 4294967296) :
    decodeKV (encodeKV t k v).2 = .ok (t, k, v) ∧
    (encodeKV t k v).1 = 12 + k.length + v.length := by
  refine ⟨decodeKV_encodeKV t k v ht hk hv, ?_⟩
  simp [encodeKV, headerSize]

/-- Claim C7 witness: the round trip at a concrete triple. -/
theorem roundTrip_and_size_witness :
    decodeKV (encodeKV 5 [97] [49, 50]).2 = .ok (5, [97], [49, 50]) ∧
    (encodeKV 5 [97] [49, 50]).1 = 12 + 1 + 2 :=
  roundTrip_and_size 5 [97] [49, 50] (by decide) (by decide) (by decide)

/-- The in-memory index entry (KeyEntry in the Go source): timestamp, byte
offset of the record header in the file, and total record size, all held as
`uint32` values. -/
structure KeyEntry where
  timestamp : Nat
  position : Nat
  totalSize : Nat
deriving DecidableEq, Repr

/-- The in-memory index (the Go `map[string]KeyEntry`), as a function from
key bytes to an optional entry. -/
def Index : Type := List Nat → Option KeyEntry

/-- The empty index (`make(map[string]KeyEntry)`). -/
def emptyIndex : Index := fun _ => none

/-- The DiskStore state: the bytes of the backing file, the file
descriptor's current offset, whether the handle has been closed, and the
in-memory index. The file is opened with O_RDWR|O_CREATE|O_APPEND. -/
structure DiskStore where
  file : List Nat
  offset : Nat
  closed : Bool
  keyStore : Index

/-- A freshly created store over a new empty file (`NewDiskStore` on a path
with no existing file): empty file, offset 0, empty index. -/
def emptyStore : DiskStore := ⟨[], 0, false, emptyIndex⟩

/-- `DiskStore.Get`: look the key up in the index; a missing key returns the
empty string without touching the file. For a present entry, seek to the
recorded position, read exactly `totalSize` bytes (`log.Fatal`, modelled as
`ioFatal`, if the seek or the full read fails - e.g. the handle is closed or
fewer bytes are available), decode, and return the value. A successful read
leaves the descriptor offset just past the bytes read. -/
def DiskStore.get (d : DiskStore) (key : List Nat) :
    Except DsError (List Nat × DiskStore) :=
  match d.keyStore key with
  | none => .ok ([], d)
  | some e =>
    if d.closed then .error .ioFatal
    else if d.file.length < e.position + e.totalSize then .error .ioFatal
    else
      match decodeKV ((d.file.drop e.position).take e.totalSize) with
      | .error er => .error er
      | .ok r => .ok (r.2.2, { d with offset := e.position + e.totalSize })

/-- The value part of `Get`, the observable result of a lookup. -/
def DiskStore.getValue (d : DiskStore) (key : List Nat) :
    Except DsError (List Nat) :=
  (d.get key).map Prod.fst

/-- `DiskStore.Set`: encode `(uint32(now), key, value)`; take the current
descriptor offset as `pos` (the Go code calls `Seek(0, io.SeekCurrent)`, and
`log.Fatal`s - modelled as `ioFatal` - if the handle is closed); append the
bytes (O_APPEND: the write lands at the end of the file and the offset moves
to the new end); record `{timestamp, uint32(pos), uint32(size)}` for the key.
The wall-clock timestamp is passed in as a parameter `t`. -/
def DiskStore.set (d : DiskStore) (t : Nat) (key value : List Nat) :
    Except DsError DiskStore :=
  let ts := t % 4294967296
  let enc := encodeKV ts key value
  let pos := d.offset
  if d.closed then .error .ioFatal
  else .ok
    { file := d.file ++ enc.2
      offset := d.file.length + enc.2.length
      closed := false
      keyStore := fun q =>
        if q = key then some ⟨ts, pos % 4294967296, enc.1 % 4294967296⟩
        else d.keyStore q }

/-- One operation against an open store, for reasoning about operation
sequences. -/
inductive DsOp where
  | get (k : List Nat)
  | set (t : Nat) (k v : List Nat)

/-- Run one operation, keeping the resulting store state. -/
def DiskStore.step (d : DiskStore) : DsOp → Except DsError DiskStore
  | .get k => (d.get k).map Prod.snd
  | .set t k v => d.set t k v

/-- Run a sequence of operations, stopping at the first fatal error. -/
def runOps (d : DiskStore) : List DsOp → Except DsError DiskStore
  | [] => .ok d
  | op :: rest =>
    match d.step op with
    | .error e => .error e
    | .ok d2 => runOps d2 rest

/-- Reading a record appended at the end of a prefix gives the record back. -/
theorem file_read_at_end (pre rec : List Nat) :
    ((pre ++ rec).drop pre.length).take rec.length = rec := by
  rw [List.drop_left, List.take_length]

/-- What `Set` produces on an open store, spelled out. -/
theorem set_ok (d : DiskStore) (t : Nat) (k v : List Nat)
    (hcl : d.closed = false) :
    d.set t k v = .ok
      { file := d.file ++ (encodeKV (t % 4294967296) k v).2
        offset := d.file.length + (encodeKV (t % 4294967296) k v).2.length
        closed := false
        keyStore := fun q =>
          if q = k then
            some ⟨t % 4294967296, d.offset % 4294967296,
              (encodeKV (t % 4294967296) k v).1 % 4294967296⟩
          else d.keyStore q } := by
  simp [DiskStore.set, hcl]

/-- `Get` of a key whose index entry points at a complete, decodable record
returns that record's value. -/
theorem get_hit (d : DiskStore) (k : List Nat) (e : KeyEntry)
    (r : Nat × List Nat × List Nat)
    (he : d.keyStore k = some e) (hcl : d.closed = false)
    (hlen : ¬ d.file.length < e.position + e.totalSize)
    (hdec : decodeKV ((d.file.drop e.position).take e.totalSize) = .ok r) :
    d.getValue k = .ok r.2.2 := by
  unfold DiskStore.getValue DiskStore.get
  rw [he, hcl]
  simp only [Bool.false_eq_true, if_false]
  rw [if_neg hlen, hdec]
  rfl

/-- After a `Set` on an open store whose descriptor offset sits at the end of
the file, `Get` of that key returns the value just written. -/
theorem getValue_after_set (d : DiskStore) (t : Nat) (k v : List Nat)
    (d' : DiskStore)
    (hcl : d.closed = false) (hoff : d.offset = d.file.length)
    (hk : k.length < 4294967296) (hv : v.length < 4294967296)
    (hsz : d.file.length + (12 + k.length + v.length) < 4294967296)
    (h : d.set t k v = .ok d') :
    d'.getValue k = .ok v := by
  rw [set_ok d t k v hcl] at h
  have hd' : _ = d' := Except.ok.inj h
  subst hd'
  have hts : t % 4294967296 < 4294967296 := Nat.mod_lt _ (by omega)
  have hflen : d.file.length < 4294967296 := by omega
  have hpos : d.offset % 4294967296 = d.file.length := by
    rw [hoff, Nat.mod_eq_of_lt hflen]
  have henc1 : (encodeKV (t % 4294967296) k v).1 = 12 + k.length + v.length := by
    simp [encodeKV, headerSize]
  have hsz' : (encodeKV (t % 4294967296) k v).1 % 4294967296
      = 12 + k.length + v.length := by
    rw [henc1, Nat.mod_eq_of_lt (by omega)]
  have hblen : (encodeKV (t % 4294967296) k v).2.length
      = 12 + k.length + v.length := by
    have hb := encodeKV_bytes_length (t % 4294967296) k v
    rw [hb, headerSize]
  refine get_hit _ k
    ⟨t % 4294967296, d.offset % 4294967296,
      (encodeKV (t % 4294967296) k v).1 % 4294967296⟩
    (t % 4294967296, k, v) (by simp) rfl ?_ ?_
  · simp only [List.length_append, hpos, hsz', hblen]
    omega
  · simp only [hpos, hsz']
    rw [show 12 + k.length + v.length = (encodeKV (t % 4294967296) k v).2.length
        from hblen.symm, file_read_at_end,
      decodeKV_encodeKV (t % 4294967296) k v hts hk hv]

/-- Claim C1 (exhibit of the code bug): `Set` records the descriptor's
current offset (`Seek(0, io.SeekCurrent)`) as the record position, while the
O_APPEND write itself lands at end-of-file. After a `Get` has moved the
offset away from the end, an immediately following `Set` then `Get` of the
same key returns a stale value: with key bytes 97/98/99 ~ "a"/"b"/"c" and
value bytes 49/50/51 ~ "1"/"2"/"3", the sequence Set(a,1), Set(b,2), Get(a),
Set(c,3), Get(c) returns "2", not the freshly written "3". -/
theorem c1_write_then_read_returns_stale :
    (runOps emptyStore [.set 0 [97] [49], .set 0 [98] [50], .get [97],
        .set 0 [99] [51]]).bind (fun d => d.getValue [99]) = .ok [50] ∧
    [50] ≠ ([51] : List Nat) :=
  ⟨rfl, by decide⟩

/-- Claim C6 (exhibit of the code bug): after Set(a,1), Set(b,2), Get(a) the
file has 28 bytes but the descriptor offset is 14, so the next Set records
position 14 in the index entry even though the appended record's header
begins at the end-of-file offset 28. -/
theorem c6_recorded_position_is_not_eof :
    (runOps emptyStore [.set 0 [97] [49], .set 0 [98] [50], .get [97]]).map
        (fun d => (d.file.length, d.offset)) = .ok (28, 14) ∧
    (runOps emptyStore [.set 0 [97] [49], .set 0 [98] [50], .get [97],
        .set 0 [99] [51]]).map (fun d => d.keyStore [99])
      = .ok (some ⟨0, 14, 14⟩) ∧
    (14 : Nat) ≠ 28 :=
  ⟨rfl, rfl, by decide⟩

/-- Claim C2 (amended): `Get` on a key absent from the index returns the
empty string as a normal result, and after `Set(k, "")` a `Get(k)` also
returns the empty string - a never-written key is NOT distinguishable from a
stored empty value. -/
theorem get_miss_returns_empty (d : DiskStore) (t : Nat) (k : List Nat)
    (hcl : d.closed = false) (hoff : d.offset = d.file.length)
    (hmiss : d.keyStore k = none)
    (hk : k.length < 4294967296)
    (hsz : d.file.length + (12 + k.length) < 4294967296) :
    d.getValue k = .ok [] ∧
    (d.set t k []).bind (fun d2 => d2.getValue k) = .ok [] := by
  constructor
  · simp [DiskStore.getValue, DiskStore.get, hmiss, Except.map]
  · have hs := set_ok d t k [] hcl
    rw [hs, Except.bind]
    exact getValue_after_set d t k [] _ hcl hoff hk (by simp)
      (by simpa using hsz) hs

/-- Claim C2 witness: the amended behavior at a concrete store and key. -/
theorem get_miss_returns_empty_witness :
    emptyStore.getValue [107] = .ok [] ∧
    (emptyStore.set 0 [107] []).bind (fun d2 => d2.getValue [107]) = .ok [] :=
  get_miss_returns_empty emptyStore 0 [107] rfl rfl rfl (by decide) (by decide)

/-- Claim C2 counterexample: with key byte 107 ~ "k", a `Get` on the
never-written key returns exactly the same result as a `Get` after
`Set(k, "")` - the code has no `NotFound` result distinct from a stored
empty value. -/
theorem c2_miss_equals_stored_empty :
    emptyStore.keyStore [107] = none ∧
    emptyStore.getValue [107]
      = (emptyStore.set 0 [107] []).bind (fun d => d.getValue [107]) ∧
    emptyStore.getValue [107] = .ok [] :=
  ⟨rfl, rfl, rfl⟩

/-- `DiskStore.createKeyStore`: the startup recovery scan. Starting at
offset `pos` of the existing file, repeatedly: read a 12-byte header
(`io.ReadFull` yields EOF - loop exit - exactly when zero bytes are
available, and a fatal error, modelled `corruptHeader`, when 1-11 bytes
are); decode it; read exactly `key_size` bytes as the key (fatal, modelled
`corruptRecord`, on a short read); skip `value_size` bytes with a relative
seek (which succeeds even past end-of-file, exactly as `lseek` does); then
upsert the index entry `{timestamp, uint32(pos), headerSize+keySize+valueSize}`
for the key and continue at the next record boundary. -/
def recoverLoop (file : List Nat) (pos : Nat) (acc : Index) :
    Except DsError Index :=
  if h0 : file.length ≤ pos then .ok acc
  else if file.length - pos < headerSize then .error .corruptHeader
  else
    let hdr := (file.drop pos).take headerSize
    let h := decodeHeader hdr
    if file.length - (pos + headerSize) < h.2.1 then .error .corruptRecord
    else
      let keyBuf := (file.drop (pos + headerSize)).take h.2.1
      recoverLoop file (pos + headerSize + h.2.1 + h.2.2)
        (fun q =>
          if q = keyBuf then
            some ⟨h.1, pos % 4294967296,
              (headerSize + h.2.1 + h.2.2) % 4294967296⟩
          else acc q)
termination_by file.length - pos
decreasing_by
  have h12 : headerSize = 12 := rfl
  omega

/-- `NewDiskStore` over an existing file: run recovery over the file's
bytes, then open the file with O_APPEND (descriptor offset 0 until the
first write). -/
def newDiskStore (file : List Nat) : Except DsError DiskStore :=
  match recoverLoop file 0 emptyIndex with
  | .error e => .error e
  | .ok idx => .ok ⟨file, 0, false, idx⟩

/-- The index entry recovery produces for a key, `none` when recovery
fails. -/
def recoveredAt (file : List Nat) (k : List Nat) : Option (Option KeyEntry) :=
  match recoverLoop file 0 emptyIndex with
  | .ok f => some (f k)
  | .error _ => none

/-- Claim C8: a header read that begins where zero bytes are available ends
recovery normally; a header read that finds between 1 and 11 bytes fails
recovery with `CorruptHeader`. -/
theorem recovery_header_read (file : List Nat) (pos : Nat) (acc : Index) :
    (file.length ≤ pos → recoverLoop file pos acc = .ok acc) ∧
    (pos < file.length → file.length - pos < headerSize →
      recoverLoop file pos acc = .error .corruptHeader) := by
  constructor
  · intro h
    rw [recoverLoop, dif_pos h]
  · intro h1 h2
    rw [recoverLoop, dif_neg (by omega), if_pos h2]

/-- Claim C8 witness: recovery of an empty file succeeds; recovery of a
3-byte file fails with `CorruptHeader`. -/
theorem recovery_header_read_witness :
    recoverLoop [] 0 emptyIndex = .ok emptyIndex ∧
    recoverLoop [1, 2, 3] 0 emptyIndex = .error .corruptHeader :=
  ⟨(recovery_header_read [] 0 emptyIndex).1 (by decide),
   (recovery_header_read [1, 2, 3] 0 emptyIndex).2 (by decide) (by decide)⟩

/-- The first 14 bytes of the 16-byte record encode(0, "a", "123"): the
header and key are intact but the last two value bytes are cut off. -/
def file14 : List Nat := [0, 0, 0, 0, 1, 0, 0, 0, 3, 0, 0, 0, 97, 49]

/-- Claim C5 (exhibit of the code bug): on a file truncated inside the last
record's value bytes, recovery does NOT fail: the value skip is a relative
seek that lands past end-of-file without error, and the next header read
then sees zero available bytes, which is treated as a normal end of file.
Recovery completes successfully and even indexes the truncated record
(key 97 maps to a 16-byte record of which only 14 bytes exist). -/
theorem c5_truncated_value_recovery_succeeds :
    file14 = (encodeKV 0 [97] [49, 50, 51]).2.take 14 ∧
    file14.length = 14 ∧
    (encodeKV 0 [97] [49, 50, 51]).2.length = 16 ∧
    recoveredAt file14 [97] = some (some ⟨0, 0, 16⟩) := by
  refine ⟨by decide, by decide, by decide, ?_⟩
  unfold recoveredAt
  rw [recoverLoop]
  norm_num [file14, headerSize, decodeHeader, le32]
  rw [recoverLoop]
  norm_num [file14]

/-- Decoding a header assembled from three little-endian u32 fields. -/
theorem decodeHeader_parts (a b c : Nat) :
    decodeHeader (u32le a ++ u32le b ++ u32le c)
      = (a % 4294967296, b % 4294967296, c % 4294967296) := by
  unfold decodeHeader
  have h1 : le32 (u32le a ++ u32le b ++ u32le c) = a % 4294967296 :=
    le32_u32le_append a (u32le b ++ u32le c)
  have h2 : le32 ((u32le a ++ u32le b ++ u32le c).drop 4) = b % 4294967296 := by
    rw [List.append_assoc, show (4 : Nat) = (u32le a).length from rfl,
      List.drop_left, le32_u32le_append]
  have h3 : le32 ((u32le a ++ u32le b ++ u32le c).drop 8) = c % 4294967296 := by
    rw [show u32le a ++ u32le b ++ u32le c
        = (u32le a ++ u32le b) ++ u32le c by simp,
      show (8 : Nat) = (u32le a ++ u32le b).length by simp [u32le],
      List.drop_left, le32_u32le]
  rw [h1, h2, h3]

/-- One iteration of the recovery loop across a complete record lying at
`pos` consumes exactly that record and upserts its key. -/
theorem recoverLoop_record (file rest1 : List Nat) (pos : Nat) (acc : Index)
    (t : Nat) (k v : List Nat)
    (hk : k.length < 4294967296) (hv : v.length < 4294967296)
    (hlen : pos + (encodeKV (t % 4294967296) k v).2.length ≤ file.length)
    (hdrop : file.drop pos = (encodeKV (t % 4294967296) k v).2 ++ rest1) :
    recoverLoop file pos acc
      = recoverLoop file (pos + headerSize + k.length + v.length)
          (fun q =>
            if q = k then
              some ⟨t % 4294967296, pos % 4294967296,
                (headerSize + k.length + v.length) % 4294967296⟩
            else acc q) := by
  have hhs : headerSize = 12 := rfl
  have hblen : (encodeKV (t % 4294967296) k v).2.length
      = 12 + k.length + v.length := by
    simpa [headerSize] using encodeKV_bytes_length (t % 4294967296) k v
  have h0 : ¬ file.length ≤ pos := by omega
  have h1 : ¬ file.length - pos < headerSize := by omega
  have htake : (file.drop pos).take headerSize
      = u32le (t % 4294967296) ++ u32le k.length ++ u32le v.length := by
    rw [hdrop]
    show (((u32le (t % 4294967296) ++ u32le k.length ++ u32le v.length)
        ++ (k ++ v)) ++ rest1).take headerSize = _
    rw [List.append_assoc,
      show headerSize = (u32le (t % 4294967296) ++ u32le k.length
        ++ u32le v.length).length by simp [u32le, headerSize],
      List.take_left]
  have hts : t % 4294967296 % 4294967296 = t % 4294967296 := by omega
  have hhead : decodeHeader (u32le (t % 4294967296) ++ u32le k.length
      ++ u32le v.length) = (t % 4294967296, k.length, v.length) := by
    rw [decodeHeader_parts, hts, Nat.mod_eq_of_lt hk, Nat.mod_eq_of_lt hv]
  have h2 : ¬ file.length - (pos + headerSize) < k.length := by omega
  have hkeyBuf : (file.drop (pos + headerSize)).take k.length = k := by
    rw [← List.drop_drop, hdrop]
    show List.take k.length (List.drop headerSize
      (((u32le (t % 4294967296) ++ u32le k.length ++ u32le v.length)
        ++ (k ++ v)) ++ rest1)) = k
    rw [show ((u32le (t % 4294967296) ++ u32le k.length ++ u32le v.length)
        ++ (k ++ v)) ++ rest1
        = (u32le (t % 4294967296) ++ u32le k.length ++ u32le v.length)
          ++ ((k ++ v) ++ rest1) by simp,
      show headerSize = (u32le (t % 4294967296) ++ u32le k.length
        ++ u32le v.length).length by simp [u32le, headerSize],
      List.drop_left,
      show (k ++ v) ++ rest1 = k ++ (v ++ rest1) by simp,
      List.take_left]
  rw [recoverLoop, dif_neg h0, if_neg h1]
  simp only [htake, hhead]
  rw [if_neg h2]
  simp only [hkeyBuf]

/-- The bytes a sequence of `Set` calls appends: the concatenation of the
encoded records (each `Set` truncates its wall-clock timestamp to u32). -/
def encodeList : List (Nat × List Nat × List Nat) → List Nat
  | [] => []
  | (t, k, v) :: rest => (encodeKV (t % 4294967296) k v).2 ++ encodeList rest

/-- The index obtained by upserting, in order, one entry per record of a
record list laid out starting at `pos`; later records overwrite earlier
ones for the same key. -/
def indexFold (pos : Nat) (acc : Index) :
    List (Nat × List Nat × List Nat) → Index
  | [] => acc
  | (t, k, v) :: rest =>
    indexFold (pos + headerSize + k.length + v.length)
      (fun q =>
        if q = k then
          some ⟨t % 4294967296, pos % 4294967296,
            (headerSize + k.length + v.length) % 4294967296⟩
        else acc q) rest

/-- Recovery over a file whose tail from `pos` is exactly a concatenation of
complete records rebuilds precisely the later-overwrites-earlier index of
those records. -/
theorem recoverLoop_encodeList (ps : List (Nat × List Nat × List Nat))
    (file : List Nat) (pos : Nat) (acc : Index)
    (hsizes : ∀ p ∈ ps, p.2.1.length < 4294967296 ∧ p.2.2.length < 4294967296)
    (hlen : file.length = pos + (encodeList ps).length)
    (hdrop : file.drop pos = encodeList ps) :
    recoverLoop file pos acc = .ok (indexFold pos acc ps) := by
  induction ps generalizing pos acc with
  | nil =>
    have hp : file.length ≤ pos := by
      simp only [encodeList, List.length_nil] at hlen
      omega
    rw [recoverLoop, dif_pos hp]
    rfl
  | cons p rest ih =>
    obtain ⟨t, k, v⟩ := p
    have hk := (hsizes (t, k, v) (List.mem_cons_self _ _)).1
    have hv := (hsizes (t, k, v) (List.mem_cons_self _ _)).2
    have hblen : (encodeKV (t % 4294967296) k v).2.length
        = 12 + k.length + v.length := by
      simpa [headerSize] using encodeKV_bytes_length (t % 4294967296) k v
    have hEL : encodeList ((t, k, v) :: rest)
        = (encodeKV (t % 4294967296) k v).2 ++ encodeList rest := rfl
    have hlen' : file.length
        = pos + ((encodeKV (t % 4294967296) k v).2.length
          + (encodeList rest).length) := by
      rw [hlen, hEL, List.length_append]
    rw [recoverLoop_record file (encodeList rest) pos acc t k v hk hv
      (by omega) (by rw [hdrop, hEL])]
    have hstep : indexFold pos acc ((t, k, v) :: rest)
        = indexFold (pos + headerSize + k.length + v.length)
            (fun q =>
              if q = k then
                some ⟨t % 4294967296, pos % 4294967296,
                  (headerSize + k.length + v.length) % 4294967296⟩
              else acc q) rest := rfl
    rw [hstep]
    have hhs : headerSize = 12 := rfl
    refine ih _ _ (fun p hp => hsizes p (List.mem_cons_of_mem _ hp)) ?_ ?_
    · omega
    · rw [show pos + headerSize + k.length + v.length
          = pos + (headerSize + k.length + v.length) by omega,
        ← List.drop_drop, hdrop, hEL,
        show headerSize + k.length + v.length
          = (encodeKV (t % 4294967296) k v).2.length by omega,
        List.drop_left]

/-- Run a sequence of `Set` calls (with their wall-clock timestamps). -/
def applySets (d : DiskStore) :
    List (Nat × List Nat × List Nat) → Except DsError DiskStore
  | [] => .ok d
  | (t, k, v) :: rest =>
    match d.set t k v with
    | .error e => .error e
    | .ok d2 => applySets d2 rest

/-- Unfolding one successful `Set` at the head of a `Set` sequence. -/
theorem applySets_cons_ok (d d2 : DiskStore) (t : Nat) (k v : List Nat)
    (rest : List (Nat × List Nat × List Nat)) (h : d.set t k v = .ok d2) :
    applySets d ((t, k, v) :: rest) = applySets d2 rest := by
  rw [show applySets d ((t, k, v) :: rest)
      = (match d.set t k v with
        | Except.error e => (Except.error e : Except DsError DiskStore)
        | Except.ok d2 => applySets d2 rest) from rfl,
    h]

/-- A sequence of `Set` calls on an open store whose descriptor offset sits
at the end of the file appends the encoded records and builds the
later-overwrites-earlier index over them. -/
theorem applySets_ok (ps : List (Nat × List Nat × List Nat)) (d : DiskStore)
    (hcl : d.closed = false) (hoff : d.offset = d.file.length) :
    applySets d ps = .ok
      { file := d.file ++ encodeList ps
        offset := d.file.length + (encodeList ps).length
        closed := false
        keyStore := indexFold d.file.length d.keyStore ps } := by
  induction ps generalizing d with
  | nil =>
    simp only [applySets, encodeList, indexFold, List.append_nil,
      List.length_nil, Nat.add_zero]
    rw [← hoff, ← hcl]
  | cons p rest ih =>
    obtain ⟨t, k, v⟩ := p
    rw [applySets_cons_ok d _ t k v rest (set_ok d t k v hcl)]
    rw [ih _ rfl (by simp)]
    have henc1 : (encodeKV (t % 4294967296) k v).1
        = headerSize + k.length + v.length := rfl
    have hblen : (encodeKV (t % 4294967296) k v).2.length
        = headerSize + k.length + v.length :=
      encodeKV_bytes_length (t % 4294967296) k v
    simp only [Except.ok.injEq, DiskStore.mk.injEq]
    refine ⟨?_, ?_, trivial, ?_⟩
    · show (d.file ++ (encodeKV (t % 4294967296) k v).2) ++ encodeList rest
        = d.file ++ encodeList ((t, k, v) :: rest)
      rw [show encodeList ((t, k, v) :: rest)
          = (encodeKV (t % 4294967296) k v).2 ++ encodeList rest from rfl,
        List.append_assoc]
    · simp only [List.length_append,
        show encodeList ((t, k, v) :: rest)
          = (encodeKV (t % 4294967296) k v).2 ++ encodeList rest from rfl]
      omega
    · show indexFold (d.file ++ (encodeKV (t % 4294967296) k v).2).length
          (fun q =>
            if q = k then
              some ⟨t % 4294967296, d.offset % 4294967296,
                (encodeKV (t % 4294967296) k v).1 % 4294967296⟩
            else d.keyStore q) rest
        = indexFold d.file.length d.keyStore ((t, k, v) :: rest)
      rw [show indexFold d.file.length d.keyStore ((t, k, v) :: rest)
          = indexFold (d.file.length + headerSize + k.length + v.length)
              (fun q =>
                if q = k then
                  some ⟨t % 4294967296, d.file.length % 4294967296,
                    (headerSize + k.length + v.length) % 4294967296⟩
                else d.keyStore q) rest from rfl,
        show (d.file ++ (encodeKV (t % 4294967296) k v).2).length
          = d.file.length + headerSize + k.length + v.length by
            simp only [List.length_append, hblen]; omega,
        hoff, henc1]

/-- The observable result of `Get` does not depend on the descriptor offset
(`Get` always seeks to the indexed position first). -/
theorem getValue_offset_irrelevant (f : List Nat) (o1 o2 : Nat) (c : Bool)
    (ks : Index) (k : List Nat) :
    DiskStore.getValue ⟨f, o1, c, ks⟩ k = DiskStore.getValue ⟨f, o2, c, ks⟩ k := by
  unfold DiskStore.getValue DiskStore.get
  cases hq : ks k with
  | none => simp only [hq, Except.map]
  | some e => simp only [hq]

/-- Claim C3: writing any sequence of key/value pairs on a fresh store,
closing it, and reopening the same file rebuilds exactly the same index
(recovery processes records in file order, later entries overwriting
earlier ones, matching the last-write-wins index the `Set` calls built),
and `Get` on the reopened store returns the same result as on the original
pre-close store for every key. Sizes are assumed to fit in `uint32`, as the
spec requires of callers. -/
theorem recovery_equivalence (ps : List (Nat × List Nat × List Nat))
    (d : DiskStore) (k : List Nat)
    (hsizes : ∀ p ∈ ps, p.2.1.length < 4294967296 ∧ p.2.2.length < 4294967296)
    (h : applySets emptyStore ps = .ok d) :
    newDiskStore d.file = .ok ⟨d.file, 0, false, d.keyStore⟩ ∧
    DiskStore.getValue ⟨d.file, 0, false, d.keyStore⟩ k = d.getValue k := by
  rw [applySets_ok ps emptyStore rfl rfl] at h
  have hd : _ = d := Except.ok.inj h
  subst hd
  constructor
  · unfold newDiskStore
    rw [recoverLoop_encodeList ps _ 0 emptyIndex hsizes
      (by simp [emptyStore]) (by simp [emptyStore])]
    rfl
  · exact getValue_offset_irrelevant _ 0 _ false _ k

/-- Claim C3 witness: one written pair, concretely. -/
theorem recovery_equivalence_witness :
    newDiskStore
        (DiskStore.mk [0, 0, 0, 0, 1, 0, 0, 0, 1, 0, 0, 0, 97, 49] 14 false
          (fun q => if q = [97] then some ⟨0, 0, 14⟩ else emptyIndex q)).file
      = .ok ⟨(DiskStore.mk [0, 0, 0, 0, 1, 0, 0, 0, 1, 0, 0, 0, 97, 49] 14
          false
          (fun q => if q = [97] then some ⟨0, 0, 14⟩ else emptyIndex q)).file,
        0, false,
        (DiskStore.mk [0, 0, 0, 0, 1, 0, 0, 0, 1, 0, 0, 0, 97, 49] 14 false
          (fun q => if q = [97] then some ⟨0, 0, 14⟩ else emptyIndex q)).keyStore⟩ ∧
    DiskStore.getValue
        ⟨(DiskStore.mk [0, 0, 0, 0, 1, 0, 0, 0, 1, 0, 0, 0, 97, 49] 14 false
          (fun q => if q = [97] then some ⟨0, 0, 14⟩ else emptyIndex q)).file,
          0, false,
          (DiskStore.mk [0, 0, 0, 0, 1, 0, 0, 0, 1, 0, 0, 0, 97, 49] 14 false
            (fun q => if q = [97] then some ⟨0, 0, 14⟩ else emptyIndex q)).keyStore⟩
        [97]
      = (DiskStore.mk [0, 0, 0, 0, 1, 0, 0, 0, 1, 0, 0, 0, 97, 49] 14 false
          (fun q => if q = [97] then some ⟨0, 0, 14⟩ else emptyIndex q)).getValue
          [97] :=
  recovery_equivalence [(0, [97], [49])]
    (DiskStore.mk [0, 0, 0, 0, 1, 0, 0, 0, 1, 0, 0, 0, 97, 49] 14 false
      (fun q => if q = [97] then some ⟨0, 0, 14⟩ else emptyIndex q))
    [97] (by decide) rfl

/-- Claim C4: setting the same key twice (with different values) on an open
store, then `Get`, returns the second value, and both records' bytes are
physically present, appended in order and unmodified, in the file (the
first one merely no longer referenced by the index). Sizes are assumed to
fit in `uint32`, as the spec requires of callers. -/
theorem last_write_wins (d : DiskStore) (t1 t2 : Nat) (k v1 v2 : List Nat)
    (d1 d2 : DiskStore)
    (hcl : d.closed = false)
    (_hne : v1 ≠ v2)
    (hk : k.length < 4294967296) (hv2 : v2.length < 4294967296)
    (hsz : d.file.length + (12 + k.length + v1.length)
      + (12 + k.length + v2.length) < 4294967296)
    (h1 : d.set t1 k v1 = .ok d1) (h2 : d1.set t2 k v2 = .ok d2) :
    d2.getValue k = .ok v2 ∧
    d2.file = d.file ++ (encodeKV (t1 % 4294967296) k v1).2
      ++ (encodeKV (t2 % 4294967296) k v2).2 := by
  rw [set_ok d t1 k v1 hcl] at h1
  have hd1 : _ = d1 := Except.ok.inj h1
  subst hd1
  have hb1 := encodeKV_bytes_length (t1 % 4294967296) k v1
  constructor
  · refine getValue_after_set _ t2 k v2 d2 rfl (by simp) hk hv2 ?_ h2
    simp only [List.length_append, hb1, headerSize]
    omega
  · rw [set_ok _ t2 k v2 rfl] at h2
    have hd2 : _ = d2 := Except.ok.inj h2
    rw [← hd2]

/-- Claim C4 witness: last-write-wins concretely, key 97 set to 49 then 50. -/
theorem last_write_wins_witness :
    DiskStore.getValue
        ⟨[0, 0, 0, 0, 1, 0, 0, 0, 1, 0, 0, 0, 97, 49,
          1, 0, 0, 0, 1, 0, 0, 0, 1, 0, 0, 0, 97, 50], 28, false,
          fun q => if q = [97] then some ⟨1, 14, 14⟩
            else if q = [97] then some ⟨0, 0, 14⟩ else none⟩ [97]
      = .ok [50] ∧
    (DiskStore.mk [0, 0, 0, 0, 1, 0, 0, 0, 1, 0, 0, 0, 97, 49,
          1, 0, 0, 0, 1, 0, 0, 0, 1, 0, 0, 0, 97, 50] 28 false
          (fun q => if q = [97] then some ⟨1, 14, 14⟩
            else if q = [97] then some ⟨0, 0, 14⟩ else none)).file
      = emptyStore.file ++ (encodeKV (0 % 4294967296) [97] [49]).2
        ++ (encodeKV (1 % 4294967296) [97] [50]).2 :=
  last_write_wins emptyStore 0 1 [97] [49] [50]
    ⟨[0, 0, 0, 0, 1, 0, 0, 0, 1, 0, 0, 0, 97, 49], 14, false,
      fun q => if q = [97] then some ⟨0, 0, 14⟩ else none⟩
    ⟨[0, 0, 0, 0, 1, 0, 0, 0, 1, 0, 0, 0, 97, 49,
      1, 0, 0, 0, 1, 0, 0, 0, 1, 0, 0, 0, 97, 50], 28, false,
      fun q => if q = [97] then some ⟨1, 14, 14⟩
        else if q = [97] then some ⟨0, 0, 14⟩ else none⟩
    rfl (by decide) (by decide) (by decide) (by decide) rfl rfl

/-- A successful `Get` never changes the in-memory index. -/
theorem get_preserves_keyStore (d e : DiskStore) (q : List Nat)
    (h : (d.get q).map Prod.snd = .ok e) : e.keyStore = d.keyStore := by
  unfold DiskStore.get at h
  cases hq : d.keyStore q with
  | none =>
    simp only [hq, Except.map, Except.ok.injEq] at h
    rw [← h]
  | some en =>
    simp only [hq] at h
    by_cases hc : d.closed = true
    · simp only [if_pos hc, Except.map] at h
      exact Except.noConfusion h
    · simp only [if_neg hc] at h
      by_cases hlt : d.file.length < en.position + en.totalSize
      · simp only [if_pos hlt, Except.map] at h
        exact Except.noConfusion h
      · simp only [if_neg hlt] at h
        cases hdec : decodeKV ((d.file.drop en.position).take en.totalSize) with
        | error er =>
          simp only [hdec, Except.map] at h
          exact Except.noConfusion h
        | ok r =>
          simp only [hdec, Except.map, Except.ok.injEq] at h
          rw [← h]

/-- A successful `Set` leaves the written key present in the index. -/
theorem set_inserts (d d2 : DiskStore) (t : Nat) (k v : List Nat)
    (h : d.set t k v = .ok d2) : (d2.keyStore k).isSome = true := by
  cases hc : d.closed with
  | true => simp [DiskStore.set, hc] at h
  | false =>
    rw [set_ok d t k v hc] at h
    have hd := Except.ok.inj h
    rw [← hd]
    simp

/-- A successful `Set` keeps every already-present key present. -/
theorem set_keeps (d d2 : DiskStore) (t : Nat) (k v q : List Nat)
    (h : d.set t k v = .ok d2)
    (hq : (d.keyStore q).isSome = true) : (d2.keyStore q).isSome = true := by
  cases hc : d.closed with
  | true => simp [DiskStore.set, hc] at h
  | false =>
    rw [set_ok d t k v hc] at h
    have hd := Except.ok.inj h
    rw [← hd]
    by_cases hqk : q = k
    · simp [hqk]
    · simp only [hqk, if_false]
      exact hq

/-- Across any successful operation sequence, a key present in the index
stays present. -/
theorem runOps_keyStore_mono (ops : List DsOp) (d d2 : DiskStore)
    (q : List Nat) (h : runOps d ops = .ok d2)
    (hq : (d.keyStore q).isSome = true) :
    (d2.keyStore q).isSome = true := by
  induction ops generalizing d with
  | nil =>
    have hd : d = d2 := Except.ok.inj h
    rw [← hd]
    exact hq
  | cons op rest ih =>
    cases hs : d.step op with
    | error e =>
      rw [show runOps d (op :: rest) = (match d.step op with
          | Except.error e => (Except.error e : Except DsError DiskStore)
          | Except.ok x => runOps x rest) from rfl, hs] at h
      simp at h
    | ok dmid =>
      rw [show runOps d (op :: rest) = (match d.step op with
          | Except.error e => (Except.error e : Except DsError DiskStore)
          | Except.ok x => runOps x rest) from rfl, hs] at h
      refine ih _ h ?_
      cases op with
      | get kk =>
        have hpres := get_preserves_keyStore d dmid kk hs
        rw [hpres]
        exact hq
      | set tt kk vv => exact set_keeps d dmid tt kk vv q hs hq

/-- Claim C10: the set of keys present in the index is non-decreasing
across any sequence of operations on the store: once a `Set` of key `k`
succeeds the key is present, it stays present across any further successful
operation sequence, and a successful `Get` leaves the index exactly as it
was. -/
theorem index_keys_monotone (d : DiskStore) (t : Nat) (k v qG : List Nat)
    (d1 d2 eG : DiskStore) (ops : List DsOp)
    (h1 : d.set t k v = .ok d1)
    (h2 : runOps d1 ops = .ok d2)
    (h3 : (d.get qG).map Prod.snd = .ok eG) :
    (d1.keyStore k).isSome = true ∧
    (d2.keyStore k).isSome = true ∧
    eG.keyStore = d.keyStore :=
  ⟨set_inserts d d1 t k v h1,
   runOps_keyStore_mono ops d1 d2 k h2 (set_inserts d d1 t k v h1),
   get_preserves_keyStore d eG qG h3⟩

/-- Claim C10 witness: concretely, after Set(97, 49) the key stays present
across a Get and another Set, and a Get leaves the index unchanged. -/
theorem index_keys_monotone_witness :
    ((DiskStore.mk [0, 0, 0, 0, 1, 0, 0, 0, 1, 0, 0, 0, 97, 49] 14 false
      (fun q => if q = [97] then some ⟨0, 0, 14⟩ else none)).keyStore
        [97]).isSome = true ∧
    ((DiskStore.mk [0, 0, 0, 0, 1, 0, 0, 0, 1, 0, 0, 0, 97, 49] 14 false
      (fun q => if q = [97] then some ⟨0, 0, 14⟩ else none)).keyStore
        [97]).isSome = true ∧
    DiskStore.keyStore emptyStore = DiskStore.keyStore emptyStore :=
  index_keys_monotone emptyStore 0 [97] [49] [107]
    ⟨[0, 0, 0, 0, 1, 0, 0, 0, 1, 0, 0, 0, 97, 49], 14, false,
      fun q => if q = [97] then some ⟨0, 0, 14⟩ else none⟩
    ⟨[0, 0, 0, 0, 1, 0, 0, 0, 1, 0, 0, 0, 97, 49], 14, false,
      fun q => if q = [97] then some ⟨0, 0, 14⟩ else none⟩
    emptyStore [] rfl rfl rfl
